import Mathlib

/-!
# Verification of `font_splitter.py`

Shallow embedding of the font-subsetting pipeline: the frequency-file
loader, the font character inspector, the frequency ranking and group
partitioner, the unicode-range builder and the stylesheet emitter.
Filesystem access, the font parser and the external subsetting tool are
abstracted as explicit inputs (line lists, cmap code-point tables, a
per-group success oracle).
-/

/-! ## Frequency loader (`load_frequency_data`) -/

/-- The character set stripped by Python `str.strip()` (the characters for
which `str.isspace()` holds). -/
def isPySpace (c : Char) : Bool :=
  let n := c.toNat
  n == 9 || n == 10 || n == 11 || n == 12 || n == 13 ||
  n == 28 || n == 29 || n == 30 || n == 31 || n == 32 ||
  n == 0x85 || n == 0xa0 || n == 0x1680 ||
  (0x2000 ≤ n && n ≤ 0x200a) ||
  n == 0x2028 || n == 0x2029 || n == 0x202f || n == 0x205f || n == 0x3000

/-- Remove the maximal trailing run of characters satisfying `p`
(the right half of Python `str.strip()`). -/
def dropTrailing (p : Char → Bool) (l : List Char) : List Char :=
  l.foldr (fun c acc => if acc.isEmpty && p c then [] else c :: acc) []

/-- Python `line.strip()`: remove leading and trailing whitespace. -/
def pyStrip (s : List Char) : List Char :=
  dropTrailing isPySpace (s.dropWhile isPySpace)

/-- Python `s.split(sep)` for a one-character separator: split at every
occurrence, keeping empty fields (`"".split(',') == [""]`). -/
def splitSep (sep : Char) : List Char → List (List Char)
  | [] => [[]]
  | c :: cs =>
    match splitSep sep cs with
    | [] => [[]]
    | p :: ps => if c = sep then [] :: p :: ps else (c :: p) :: ps

/-- Numeric value of a list of ASCII digits. -/
def digitsVal (ds : List Char) : Nat :=
  ds.foldl (fun acc d => 10 * acc + (d.toNat - 48)) 0

/-- A non-empty all-ASCII-digit string parses to its value. -/
def parseDigits (ds : List Char) : Option Nat :=
  if ds.isEmpty then none
  else if ds.all (fun d => d.isDigit) then some (digitsVal ds) else none

/-- Python `int(s)`: surrounding whitespace is ignored, then an optional
sign followed by digits.  (Python additionally accepts underscore digit
separators and non-ASCII decimal digits; no claim depends on those inputs,
so they are not modelled and fail to parse here.) -/
def parseInt (s : List Char) : Option Int :=
  match pyStrip s with
  | '+' :: ds => (parseDigits ds).map (fun n => (n : Int))
  | '-' :: ds => (parseDigits ds).map (fun n => -(n : Int))
  | ds => (parseDigits ds).map (fun n => (n : Int))

/-- The Python dict `char_freq` built by the loader, as an
insertion-ordered association list. -/
abbrev FreqDict := List (List Char × Int)

/-- Python `d[k] = v`: replace the value in place when the key exists,
otherwise append the new binding. -/
def dictInsert (m : FreqDict) (k : List Char) (v : Int) : FreqDict :=
  if m.any (fun p => p.1 == k) then
    m.map (fun p => if p.1 == k then (k, v) else p)
  else m ++ [(k, v)]

/-- Python `d.get(k, d0)`. -/
def dictGet (m : FreqDict) (k : List Char) (d0 : Int) : Int :=
  match m.find? (fun p => p.1 == k) with
  | some p => p.2
  | none => d0

/-- One iteration of the loader's line loop: strip the line, skip blank and
`#` lines, split on tab when the line contains one else on comma, require
two fields, parse the second as an integer; `some (key, value)` when the
line contributes an entry, `none` when it is skipped. -/
def processLine (line : List Char) : Option (List Char × Int) :=
  if (pyStrip line).isEmpty then none
  else if (pyStrip line).head? = some '#' then none
  else
    match (if (pyStrip line).contains '\t' then splitSep '\t' (pyStrip line)
           else splitSep ',' (pyStrip line)) with
    | p0 :: p1 :: _ =>
      match parseInt p1 with
      | some v => some (p0, v)
      | none => none
    | _ => none

/-- `load_frequency_data`: fold the line loop over the file's lines,
building the dict. -/
def load_frequency_data (lines : List (List Char)) : FreqDict :=
  lines.foldl
    (fun m line =>
      match processLine line with
      | some kv => dictInsert m kv.1 kv.2
      | none => m)
    []

/-! ## Font inspector (`get_chars_from_font`) -/

/-- `get_chars_from_font`: iterate every code point of every cmap subtable,
skip code points `chr` rejects (≥ 0x110000), the null character and
characters whose Unicode general category starts with `C`; collect into a
set and return sorted.  `catC c` is an oracle for
`unicodedata.category(chr(c)).startswith('C')`. -/
def get_chars_from_font (tables : List (List Nat)) (catC : Nat → Bool) : List Nat :=
  List.insertionSort (· ≤ ·)
    (tables.flatten.filter
      (fun c => decide (c < 1114112) && !(c == 0) && !(catC c))).dedup

/-! ## Unicode-range builder (`create_unicode_range`) -/

/-- The character for one hexadecimal digit value, uppercase. -/
def hexDigitChar (n : Nat) : Char :=
  if n < 10 then Char.ofNat (48 + n) else Char.ofNat (55 + n)

/-- Hexadecimal digits of `n`, most significant first; structural on the
fuel, and fuel `n + 1` always suffices. -/
def hexCore : Nat → Nat → List Char
  | 0, _ => []
  | fuel + 1, n =>
    if n < 16 then [hexDigitChar n]
    else hexCore fuel (n / 16) ++ [hexDigitChar (n % 16)]

/-- Python format spec `04X`: uppercase hexadecimal, zero-padded to at
least four digits. -/
def hex04X (n : Nat) : String :=
  let ds := hexCore (n + 1) n
  String.mk (List.replicate (4 - ds.length) '0' ++ ds)

/-- Close one run: `U+XXXX` for a singleton, `U+XXXX-YYYY` otherwise. -/
def rangeStr (s e : Nat) : String :=
  if s = e then "U+" ++ hex04X s else "U+" ++ hex04X s ++ "-" ++ hex04X e

/-- The loop of `create_unicode_range` over the tail of the sorted list,
carrying the open run `(s, e)` and the closed runs `acc`. -/
def crLoop : List Nat → Nat → Nat → List String → List String
  | [], s, e, acc => acc ++ [rangeStr s e]
  | c :: cs, s, e, acc =>
    if c = e + 1 then crLoop cs s c acc
    else crLoop cs c c (acc ++ [rangeStr s e])

/-- `create_unicode_range`: empty input gives the empty string; otherwise
sort ascending and merge consecutive runs, joined by `", "`. -/
def create_unicode_range (codes : List Nat) : String :=
  if codes.isEmpty then ""
  else
    match List.insertionSort (· ≤ ·) codes with
    | [] => ""
    | c :: cs => String.intercalate ", " (crLoop cs c c [])

/-- The maximal runs of consecutive values of a list, as `(start, end)`
pairs, stated by structural recursion (the spec's reading: merge maximal
runs of consecutive values of the sorted list). -/
def specRuns : List Nat → List (Nat × Nat)
  | [] => []
  | c :: cs =>
    match specRuns cs with
    | [] => [(c, c)]
    | (s, e) :: rest =>
      if s = c + 1 then (c, e) :: rest else (c, c) :: (s, e) :: rest

/-- Absorb an open run `(s, e)` into a closed-run list: extend the first
run when it continues `e`, otherwise close `(s, e)` in front. -/
def mergeHead (s e : Nat) (rs : List (Nat × Nat)) : List (Nat × Nat) :=
  match rs with
  | [] => [(s, e)]
  | (s2, e2) :: rest =>
    if s2 = e + 1 then (s, e2) :: rest else (s, e) :: (s2, e2) :: rest

/-- The unicode-range expression the spec describes: maximal runs of the
ascending-sorted code points, each formatted and joined by `", "`. -/
def specUnicodeRange (codes : List Nat) : String :=
  String.intercalate ", "
    ((specRuns (List.insertionSort (· ≤ ·) codes)).map (fun p => rangeStr p.1 p.2))

/-! ## Partitioner (step 4 of `main`) -/

/-- Step 4 of `main`: `G` slices of `l`, slice `i` being
`l[i*total//G : (i+1)*total//G]`. -/
def partitionGroups {α : Type} (l : List α) (g : Nat) : List (List α) :=
  (List.range g).map
    (fun i => (l.drop (i * l.length / g)).take ((i + 1) * l.length / g - i * l.length / g))

/-! ## Ranking (step 3 of `main`) -/

/-- The frequency lookup `freq_data.get(char, 0)` keyed by a code point:
`chr c` is a one-character dict key when `c` is a Unicode scalar value.  A
lone surrogate cannot occur in a key of a UTF-8-decoded file, so its
lookup always misses and returns the default. -/
def freqLookupCode (m : FreqDict) (c : Nat) : Int :=
  if c < 0xd800 ∨ (0xdfff < c ∧ c < 0x110000) then dictGet m [Char.ofNat c] 0 else 0

/-- Step 3 of `main`: pair each font character with its frequency and sort
by frequency descending.  Python `list.sort(key=..., reverse=True)` is
stable; a stable sort's output is unique, and insertion sort with
`fun a b => b.2 ≤ a.2` (which inserts each element ahead of the
equal-frequency elements placed after it) is stable for this key. -/
def rankedList (chars : List Nat) (m : FreqDict) : List (Nat × Int) :=
  List.insertionSort (fun a b : Nat × Int => b.2 ≤ a.2)
    (chars.map (fun c => (c, freqLookupCode m c)))

/-! ## Subset emitter (steps 5 and 6 of `main`) -/

/-- The character for one decimal digit value. -/
def decDigitChar (n : Nat) : Char := Char.ofNat (48 + n)

/-- Decimal digits of `n`, most significant first (fuel-based as
`hexCore`). -/
def decCore : Nat → Nat → List Char
  | 0, _ => []
  | fuel + 1, n =>
    if n < 10 then [decDigitChar n]
    else decCore fuel (n / 10) ++ [decDigitChar (n % 10)]

/-- Python format spec `03d`: decimal, zero-padded to at least three
digits. -/
def dec03 (n : Nat) : String :=
  let ds := decCore (n + 1) n
  String.mk (List.replicate (3 - ds.length) '0' ++ ds)

/-- `f"AlibabaPuHuiTi-subset-{i:03d}.woff2"`. -/
def subsetFilename (i : Nat) : String :=
  "AlibabaPuHuiTi-subset-" ++ dec03 i ++ ".woff2"

/-- `os.path.join` for a relative POSIX name. -/
def pathJoin (dir name : String) : String :=
  if dir == "" then name
  else if dir.endsWith "/" then dir ++ name
  else dir ++ "/" ++ name

/-- The `@font-face` rule built for group `i` (the group is its list of
code points; `ord` of each character is the code point itself). -/
def cssRule (outputDir : String) (i : Nat) (group : List Nat) : String :=
  "@font-face \x7b\n  font-family: \"Alibaba PuHuiTi 3.0\";\n  font-style: normal;\n  font-weight: 400;\n  font-display: swap;\n  src: url(\""
    ++ pathJoin outputDir (subsetFilename i)
    ++ "\") format(\"woff2\");\n  unicode-range: "
    ++ create_unicode_range group ++ ";\n\x7d"

/-- Step 5 of `main`: the loop over `enumerate(groups)`.  `ok i` abstracts
whether the external `pyftsubset` invocation for group `i` succeeds; an
empty group is skipped, a failed group is skipped (the `except` branch
runs `continue`), a successful group appends its rule. -/
def emitLoop (outputDir : String) (ok : Nat → Bool) :
    List (List Nat) → Nat → List String → List String
  | [], _, acc => acc
  | g :: gs, i, acc =>
    if g.isEmpty then emitLoop outputDir ok gs (i + 1) acc
    else if ok i then emitLoop outputDir ok gs (i + 1) (acc ++ [cssRule outputDir i g])
    else emitLoop outputDir ok gs (i + 1) acc

/-- The `css_rules` list accumulated by step 5. -/
def emitRules (outputDir : String) (groups : List (List Nat)) (ok : Nat → Bool) : List String :=
  emitLoop outputDir ok groups 0 []

/-- `main` after argument parsing, with the filesystem and the external
subsetter abstracted: the two file-existence checks (`sys.exit(1)` is
`Except.error ()`), then loading, inspection, ranking, partitioning into
`range(args.groups)` slices (a non-positive group count gives an empty
`range`, modelled by `Int.toNat`), and the emitter.  Returns the groups
(as character code lists) and the rule list written to the stylesheet. -/
def mainModel (inputIsFile freqIsFile : Bool) (freqLines : List (List Char))
    (cmapTables : List (List Nat)) (catC : Nat → Bool) (gArg : Int)
    (outputDir : String) (ok : Nat → Bool) :
    Except Unit (List (List Nat) × List String) :=
  if !inputIsFile then Except.error ()
  else if !freqIsFile then Except.error ()
  else
    let freqData := load_frequency_data freqLines
    let allChars := get_chars_from_font cmapTables catC
    let ranked := rankedList allChars freqData
    let groups := (partitionGroups ranked gArg.toNat).map (fun gr => gr.map Prod.fst)
    Except.ok (groups, emitRules outputDir groups ok)

/-! ## Lemmas about the partitioner -/

theorem boundary_mono (T g i : Nat) : i * T / g ≤ (i + 1) * T / g :=
  Nat.div_le_div_right (Nat.mul_le_mul_right T (Nat.le_succ i))

theorem boundary_le (T : Nat) {g i : Nat} (hg : 1 ≤ g) (hi : i ≤ g) : i * T / g ≤ T := by
  calc i * T / g ≤ g * T / g := Nat.div_le_div_right (Nat.mul_le_mul_right T hi)
  _ = T := Nat.mul_div_cancel_left T hg

/-- Consecutive slices at monotone boundaries starting at 0 concatenate to
an initial segment. -/
theorem flatten_slices {α : Type} (l : List α) (b : Nat → Nat)
    (h0 : b 0 = 0) (hm : ∀ i, b i ≤ b (i + 1)) (n : Nat) :
    ((List.range n).map (fun i => (l.drop (b i)).take (b (i + 1) - b i))).flatten
      = l.take (b n) := by
  induction n with
  | zero => simp [h0]
  | succ n ih =>
    rw [List.range_succ, List.map_append, List.flatten_append, ih]
    simp only [List.map_cons, List.map_nil, List.flatten_cons, List.flatten_nil,
      List.append_nil]
    rw [← List.take_add]
    have := hm n
    congr 1
    omega

theorem partitionGroups_length {α : Type} (l : List α) (g : Nat) :
    (partitionGroups l g).length = g := by
  simp [partitionGroups]

theorem partitionGroups_flatten {α : Type} (l : List α) {g : Nat} (hg : 1 ≤ g) :
    (partitionGroups l g).flatten = l := by
  unfold partitionGroups
  rw [flatten_slices l (fun i => i * l.length / g) (by simp) (fun i => boundary_mono _ _ _) g]
  rw [Nat.mul_div_cancel_left l.length hg]
  exact List.take_length l

theorem partitionGroups_getD {α : Type} (l : List α) {g i : Nat} (hi : i < g) :
    (partitionGroups l g).getD i []
      = (l.drop (i * l.length / g)).take ((i + 1) * l.length / g - i * l.length / g) := by
  unfold partitionGroups
  rw [List.getD_eq_getElem?_getD, List.getElem?_map, List.getElem?_range hi]
  rfl

theorem partitionGroups_size {α : Type} (l : List α) {g i : Nat} (hg : 1 ≤ g) (hi : i < g) :
    ((partitionGroups l g).getD i []).length
      = (i + 1) * l.length / g - i * l.length / g := by
  rw [partitionGroups_getD l hi]
  rw [List.length_take, List.length_drop]
  have h1 : (i + 1) * l.length / g ≤ l.length := boundary_le l.length hg hi
  have h2 : i * l.length / g ≤ (i + 1) * l.length / g := boundary_mono _ _ _
  omega

theorem boundary_diff_lb (T : Nat) {g : Nat} (i : Nat) (hg : 1 ≤ g) :
    T / g ≤ (i + 1) * T / g - i * T / g := by
  have h3 : (i * T / g + T / g) * g ≤ i * T + T := by
    have h1 : i * T / g * g ≤ i * T := Nat.div_mul_le_self _ _
    have h2 : T / g * g ≤ T := Nat.div_mul_le_self _ _
    rw [Nat.add_mul]
    exact Nat.add_le_add h1 h2
  have h4 : i * T / g + T / g ≤ (i + 1) * T / g := by
    rw [Nat.succ_mul]
    exact (Nat.le_div_iff_mul_le hg).mpr h3
  omega

theorem boundary_diff_ub (T : Nat) {g : Nat} (i : Nat) (hg : 1 ≤ g) :
    (i + 1) * T / g - i * T / g ≤ T / g + 1 := by
  have h2 : (i + 1) * T / g ≤ i * T / g + T / g + 1 := by
    rw [Nat.succ_mul, Nat.add_div hg]
    split
    · exact Nat.le_refl _
    · omega
  generalize (i + 1) * T / g = d at h2 ⊢
  generalize i * T / g = b at h2 ⊢
  generalize T / g = c at h2 ⊢
  omega

/-- C1: for every list and every group count `G ≥ 1`, the partitioner
produces exactly `G` groups, their concatenation in order is the whole
list (no omissions or duplicates), and each group's size is within one of
`total / G`. -/
theorem claim_c1_partition {α : Type} (l : List α) (g : Nat) (hg : 1 ≤ g) :
    (partitionGroups l g).length = g ∧
    (partitionGroups l g).flatten = l ∧
    ∀ i, i < g →
      l.length / g ≤ ((partitionGroups l g).getD i []).length ∧
      ((partitionGroups l g).getD i []).length ≤ l.length / g + 1 := by
  refine ⟨partitionGroups_length l g, partitionGroups_flatten l hg, fun i hi => ?_⟩
  rw [partitionGroups_size l hg hi]
  exact ⟨boundary_diff_lb _ i hg, boundary_diff_ub _ i hg⟩

/-- Witness for C1: the partition of a five-element list into three
groups. -/
theorem claim_c1_partition_witness :
    (1 : Nat) ≤ 3 ∧
    ((partitionGroups [(10 : Nat), 20, 30, 40, 50] 3).length = 3 ∧
     (partitionGroups [(10 : Nat), 20, 30, 40, 50] 3).flatten = [10, 20, 30, 40, 50] ∧
     ∀ i, i < 3 →
       [(10 : Nat), 20, 30, 40, 50].length / 3
           ≤ ((partitionGroups [(10 : Nat), 20, 30, 40, 50] 3).getD i []).length ∧
       ((partitionGroups [(10 : Nat), 20, 30, 40, 50] 3).getD i []).length
           ≤ [(10 : Nat), 20, 30, 40, 50].length / 3 + 1) :=
  ⟨by decide, claim_c1_partition [10, 20, 30, 40, 50] 3 (by decide)⟩

/-- The length of slice `i` of the partition, for `i < g`. -/
theorem slice_length {α : Type} (l : List α) {g i : Nat} (hg : 1 ≤ g) (hi : i < g) :
    ((l.drop (i * l.length / g)).take ((i + 1) * l.length / g - i * l.length / g)).length
      = (i + 1) * l.length / g - i * l.length / g := by
  rw [List.length_take, List.length_drop]
  have h1 : (i + 1) * l.length / g ≤ l.length := boundary_le l.length hg hi
  have h2 : i * l.length / g ≤ (i + 1) * l.length / g := boundary_mono _ _ _
  omega

/-- The sum of a list whose elements are all `q` or `q + 1`. -/
theorem sum_count_pair (q : Nat) : ∀ s : List Nat,
    (∀ x ∈ s, x = q ∨ x = q + 1) →
    s.sum = q * s.length + s.countP (fun x => x == q + 1)
  | [], _ => by simp
  | x :: s, h => by
    have hx := h x (List.mem_cons_self x s)
    have ih := sum_count_pair q s (fun y hy => h y (List.mem_cons_of_mem x hy))
    rw [List.sum_cons, List.countP_cons, List.length_cons, ih, Nat.mul_succ]
    rcases hx with hx | hx
    · have hbeq : (x == q + 1) = false := by
        rw [beq_eq_false_iff_ne]
        omega
      simp only [hbeq, Bool.false_eq_true, if_false]
      omega
    · have hbeq : (x == q + 1) = true := by
        rw [beq_iff_eq]
        exact hx
      simp only [hbeq, if_true]
      omega

/-- C7 (amended): with the boundary formula every group has size
`total / G` or `total / G + 1`, and exactly `total % G` groups have the
larger size; the larger groups are wherever the floor boundaries put them,
not necessarily first. -/
theorem claim_c7_sizes {α : Type} (l : List α) (g : Nat) (hg : 1 ≤ g) :
    (∀ x ∈ (partitionGroups l g).map List.length,
        x = l.length / g ∨ x = l.length / g + 1) ∧
    ((partitionGroups l g).map List.length).countP (fun x => x == l.length / g + 1)
      = l.length % g := by
  have hmem : ∀ x ∈ (partitionGroups l g).map List.length,
      x = l.length / g ∨ x = l.length / g + 1 := by
    intro x hx
    simp only [List.mem_map] at hx
    obtain ⟨gr, hgr, rfl⟩ := hx
    simp only [partitionGroups, List.mem_map, List.mem_range] at hgr
    obtain ⟨i, hi, rfl⟩ := hgr
    rw [slice_length l hg hi]
    have lb := boundary_diff_lb l.length i hg
    have ub := boundary_diff_ub l.length i hg
    generalize (i + 1) * l.length / g = d at lb ub ⊢
    generalize i * l.length / g = b at lb ub ⊢
    generalize l.length / g = c at lb ub ⊢
    omega
  refine ⟨hmem, ?_⟩
  have hlen : ((partitionGroups l g).map List.length).length = g := by
    simp [partitionGroups]
  have hsum : ((partitionGroups l g).map List.length).sum = l.length := by
    rw [← List.length_flatten, partitionGroups_flatten l hg]
  have hq := sum_count_pair (l.length / g) _ hmem
  rw [hlen, hsum] at hq
  have hdm := Nat.div_add_mod l.length g
  rw [Nat.mul_comm g (l.length / g)] at hdm
  generalize l.length / g * g = A at hq hdm
  generalize l.length % g = M at hdm ⊢
  omega

/-- Witness for the amended C7: five elements in three groups give sizes
`[1, 2, 2]`, two of them the larger size `2 = 5 % 3`. -/
theorem claim_c7_sizes_witness :
    (1 : Nat) ≤ 3 ∧
    ((∀ x ∈ (partitionGroups [(0 : Nat), 1, 2, 3, 4] 3).map List.length,
        x = [(0 : Nat), 1, 2, 3, 4].length / 3 ∨ x = [(0 : Nat), 1, 2, 3, 4].length / 3 + 1) ∧
     ((partitionGroups [(0 : Nat), 1, 2, 3, 4] 3).map List.length).countP
         (fun x => x == [(0 : Nat), 1, 2, 3, 4].length / 3 + 1)
       = [(0 : Nat), 1, 2, 3, 4].length % 3) :=
  ⟨by decide, claim_c7_sizes [0, 1, 2, 3, 4] 3 (by decide)⟩

/-- C7 counterexample: for the three-element list split in two, group 1
has the larger size `3/2 + 1 = 2` and group 0 the smaller size `1`, yet
`1 < 0` fails: a larger group does not precede a smaller one. -/
theorem claim_c7_counterexample :
    ¬ (∀ i, i < 2 → ∀ j, j < 2 →
        ((partitionGroups [(0 : Nat), 1, 2] 2).getD i []).length
            = [(0 : Nat), 1, 2].length / 2 + 1 →
        ((partitionGroups [(0 : Nat), 1, 2] 2).getD j []).length
            = [(0 : Nat), 1, 2].length / 2 →
        i < j) := by
  decide

/-- C8 counterexample: with both input files present and `G = -1`, `main`
does not reject the group count: it proceeds, the partition loop runs zero
iterations, and the run completes with zero groups and zero rules instead
of exiting with an error. -/
theorem claim_c8_counterexample :
    mainModel true true [] [] (fun _ => false) (-1) "subsets" (fun _ => true)
      = Except.ok ([], []) ∧
    mainModel true true [] [] (fun _ => false) (-1) "subsets" (fun _ => true)
      ≠ Except.error () := by
  have hM : mainModel true true [] [] (fun _ => false) (-1) "subsets" (fun _ => true)
      = Except.ok ([], []) := rfl
  exact ⟨hM, fun h => Except.noConfusion (hM.symm.trans h)⟩

/-- C8 (amended): the program performs no validation of the group count:
for `G ≤ 0` the pre-flight checks pass, `range(G)` is empty, so the run
completes with zero groups and zero style rules; and partitioning an empty
ranked list with `G ≥ 1` yields exactly `G` empty groups. -/
theorem claim_c8_amended (freqLines : List (List Char)) (cmapTables : List (List Nat))
    (catC : Nat → Bool) (gArg : Int) (outputDir : String) (ok : Nat → Bool)
    (hg : gArg ≤ 0) (g : Nat) (_hpos : 1 ≤ g) :
    mainModel true true freqLines cmapTables catC gArg outputDir ok
      = Except.ok ([], []) ∧
    partitionGroups ([] : List Nat) g = List.replicate g [] := by
  constructor
  · have h0 : gArg.toNat = 0 := Int.toNat_of_nonpos hg
    simp [mainModel, h0, partitionGroups, emitRules, emitLoop]
  · simp [partitionGroups, List.map_const']

/-- Witness for the amended C8 at `G = -1` and, for the empty-list part,
`G = 2`. -/
theorem claim_c8_amended_witness :
    ((-1 : Int) ≤ 0 ∧ (1 : Nat) ≤ 2) ∧
    (mainModel true true [['a']] [[65]] (fun _ => false) (-1) "out" (fun _ => true)
        = Except.ok ([], []) ∧
     partitionGroups ([] : List Nat) 2 = List.replicate 2 []) :=
  ⟨⟨by decide, by decide⟩,
    claim_c8_amended [['a']] [[65]] (fun _ => false) (-1) "out" (fun _ => true)
      (by decide) 2 (by decide)⟩

/-! ## Lemmas about the unicode-range builder -/

theorem mergeHead_specRuns_cons (s e c : Nat) (cs : List Nat) :
    mergeHead s e (specRuns (c :: cs))
      = if c = e + 1 then mergeHead s c (specRuns cs)
        else (s, e) :: mergeHead c c (specRuns cs) := by
  rw [specRuns]
  cases h : specRuns cs with
  | nil =>
    by_cases hc : c = e + 1 <;> simp [mergeHead, hc]
  | cons p rest =>
    obtain ⟨s1, e1⟩ := p
    by_cases hc : c = e + 1
    · subst hc
      by_cases h1 : s1 = e + 1 + 1 <;> simp [mergeHead, h1]
    · by_cases h1 : s1 = c + 1 <;> simp [mergeHead, h1, hc]

/-- The run of `specRuns` opened by the head element is the head element's
singleton run absorbed into the tail's runs. -/
theorem specRuns_cons_eq_mergeHead (c : Nat) (cs : List Nat) :
    specRuns (c :: cs) = mergeHead c c (specRuns cs) := by
  rw [specRuns]
  cases h : specRuns cs with
  | nil => simp [mergeHead]
  | cons p rest =>
    obtain ⟨s1, e1⟩ := p
    by_cases h1 : s1 = c + 1 <;> simp [mergeHead, h1]

/-- The source's run-merging loop computes the closed runs `acc`, then the
open run absorbed into the maximal runs of the remaining input. -/
theorem crLoop_eq : ∀ (cs : List Nat) (s e : Nat) (acc : List String),
    crLoop cs s e acc
      = acc ++ (mergeHead s e (specRuns cs)).map (fun p => rangeStr p.1 p.2)
  | [], s, e, acc => by simp [crLoop, specRuns, mergeHead]
  | c :: cs, s, e, acc => by
    rw [crLoop, mergeHead_specRuns_cons]
    by_cases hc : c = e + 1
    · rw [if_pos hc, if_pos hc, crLoop_eq cs s c acc]
    · rw [if_neg hc, if_neg hc, crLoop_eq cs c c (acc ++ [rangeStr s e])]
      simp

theorem create_unicode_range_eq_of_sorted (codes : List Nat) (c : Nat) (cs : List Nat)
    (h : codes ≠ []) (hs : List.insertionSort (· ≤ ·) codes = c :: cs) :
    create_unicode_range codes = String.intercalate ", " (crLoop cs c c []) := by
  unfold create_unicode_range
  rw [if_neg (by simpa [List.isEmpty_iff] using h), hs]

/-- C2: the unicode-range builder equals the spec's sort-then-merge-runs
description on every input (sort ascending, emit maximal consecutive runs
as `U+XXXX` or `U+XXXX-YYYY`, joined by `", "`), and produces the spec's
example outputs. -/
theorem claim_c2_unicode_range :
    (∀ codes : List Nat, create_unicode_range codes = specUnicodeRange codes) ∧
    create_unicode_range [65, 66, 67, 90] = "U+0041-0043, U+005A" ∧
    create_unicode_range [5] = "U+0005" ∧
    create_unicode_range [] = "" := by
  refine ⟨?_, by decide, by decide, by decide⟩
  intro codes
  rcases hs : List.insertionSort (· ≤ ·) codes with _ | ⟨c, cs⟩
  · have hp := List.perm_insertionSort (fun a b : Nat => a ≤ b) codes
    rw [hs] at hp
    have hnil : codes = [] := hp.symm.eq_nil
    subst hnil
    rfl
  · have hne : codes ≠ [] := by
      intro h0
      subst h0
      simp [List.insertionSort] at hs
    rw [create_unicode_range_eq_of_sorted codes c cs hne hs, crLoop_eq, List.nil_append]
    unfold specUnicodeRange
    rw [hs, specRuns_cons_eq_mergeHead]

/-! ## Lemmas about the font inspector -/

/-- C4: for every cmap table set and every general-category oracle, the
inspector's character set contains no null character and no category-C
character, has no duplicates, and is in strictly ascending code-point
order. -/
theorem claim_c4_inspector (tables : List (List Nat)) (catC : Nat → Bool) :
    (∀ c ∈ get_chars_from_font tables catC, c ≠ 0 ∧ catC c = false) ∧
    (get_chars_from_font tables catC).Nodup ∧
    (get_chars_from_font tables catC).Sorted (· < ·) := by
  have hperm := List.perm_insertionSort (fun a b : Nat => a ≤ b)
      ((tables.flatten.filter
        (fun c => decide (c < 1114112) && !(c == 0) && !(catC c))).dedup)
  have hnodup : (get_chars_from_font tables catC).Nodup := by
    unfold get_chars_from_font
    exact hperm.nodup_iff.mpr (List.nodup_dedup _)
  refine ⟨?_, hnodup, ?_⟩
  · intro c hc
    unfold get_chars_from_font at hc
    have hc2 := hperm.subset hc
    rw [List.mem_dedup, List.mem_filter] at hc2
    obtain ⟨-, hpred⟩ := hc2
    simp only [Bool.and_eq_true, Bool.not_eq_true', beq_eq_false_iff_ne,
      decide_eq_true_eq] at hpred
    exact ⟨hpred.1.2, hpred.2⟩
  · unfold get_chars_from_font
    refine (List.sorted_insertionSort (fun a b : Nat => a ≤ b) _).lt_of_le ?_
    unfold get_chars_from_font at hnodup
    exact hnodup

/-! ## Lemmas about the subset emitter -/

/-- The emitter loop appends, to the rules accumulated so far, one rule for
each later non-empty group whose subsetting succeeds, in order. -/
theorem emitLoop_eq (outputDir : String) (ok : Nat → Bool)
    (gs : List (List Nat)) : ∀ (i : Nat) (acc : List String),
    emitLoop outputDir ok gs i acc
      = acc ++ (List.enumFrom i gs).filterMap
          (fun p => if !p.2.isEmpty && ok p.1 then some (cssRule outputDir p.1 p.2) else none) := by
  induction gs with
  | nil => intro i acc; simp [emitLoop]
  | cons g gs ih =>
    intro i acc
    rw [emitLoop, List.enumFrom_cons, List.filterMap_cons]
    by_cases hg : g.isEmpty
    · rw [if_pos hg, ih]
      simp [hg]
    · rw [if_neg hg]
      by_cases ho : ok i
      · rw [if_pos ho, ih]
        simp [hg, ho]
      · rw [if_neg ho, ih]
        simp [hg, ho]

/-- C3: the rule list the run writes is exactly one `@font-face` rule per
non-empty group whose external subsetting succeeds, in group order; a
failing group contributes nothing and the loop continues over the
remaining groups unchanged. -/
theorem claim_c3_emitter (outputDir : String) (groups : List (List Nat)) (ok : Nat → Bool) :
    emitRules outputDir groups ok
      = (List.enumFrom 0 groups).filterMap
          (fun p => if !p.2.isEmpty && ok p.1 then some (cssRule outputDir p.1 p.2) else none) := by
  unfold emitRules
  rw [emitLoop_eq]
  simp

/-! ## Lemmas about the frequency loader -/

/-- An entry of `dictInsert m k v` is an entry of `m` or the new binding. -/
theorem mem_dictInsert {m : FreqDict} {k : List Char} {v : Int} {x : List Char × Int}
    (hx : x ∈ dictInsert m k v) : x ∈ m ∨ x = (k, v) := by
  unfold dictInsert at hx
  split at hx
  · rw [List.mem_map] at hx
    obtain ⟨p, hp, hpx⟩ := hx
    by_cases h : p.1 == k
    · rw [if_pos h] at hpx
      exact Or.inr hpx.symm
    · rw [if_neg h] at hpx
      exact Or.inl (hpx ▸ hp)
  · rw [List.mem_append] at hx
    rcases hx with h | h
    · exact Or.inl h
    · exact Or.inr (by simpa using h)

/-- Every entry of the fold that builds the dict comes from the initial
dict or from a processed line. -/
theorem load_step_mem : ∀ (lines : List (List Char)) (m0 : FreqDict) (x : List Char × Int),
    x ∈ lines.foldl
      (fun m line =>
        match processLine line with
        | some kv => dictInsert m kv.1 kv.2
        | none => m) m0 →
    x ∈ m0 ∨ ∃ line ∈ lines, processLine line = some x
  | [], m0, x => by simp
  | line :: lines, m0, x => by
    intro hx
    rw [List.foldl_cons] at hx
    rcases load_step_mem lines _ x hx with h | h
    · cases hp : processLine line with
      | none =>
        rw [hp] at h
        exact Or.inl h
      | some kv =>
        rw [hp] at h
        rcases mem_dictInsert h with h2 | h2
        · exact Or.inl h2
        · exact Or.inr ⟨line, List.mem_cons_self _ _, by rw [hp, h2]⟩
    · obtain ⟨l2, hl2, hpl⟩ := h
      exact Or.inr ⟨l2, List.mem_cons_of_mem _ hl2, hpl⟩

/-- Every entry of the loaded dict is the output of `processLine` on some
input line. -/
theorem load_mem {lines : List (List Char)} {x : List Char × Int}
    (hx : x ∈ load_frequency_data lines) :
    ∃ line ∈ lines, processLine line = some x := by
  unfold load_frequency_data at hx
  rcases load_step_mem lines [] x hx with h | h
  · simp at h
  · exact h

/-- C5 counterexample: the line `ab<TAB>-5` stores the two-character key
`"ab"` with the negative value `-5`: the loader enforces neither
single-character keys nor non-negative frequencies. -/
theorem claim_c5_counterexample :
    load_frequency_data [['a', 'b', '\t', '-', '5']] = [(['a', 'b'], -5)] ∧
    (['a', 'b'] : List Char).length ≠ 1 ∧ (-5 : Int) < 0 := by
  refine ⟨?_, by decide, by decide⟩
  rfl

/-- C5 (amended): the loader stores exactly what the lines provide — keys
are the first field verbatim and values any parsed integer — so whenever
every line that parses yields a single-character key and a non-negative
value, every entry of the table is a single character mapped to a
non-negative integer. -/
theorem claim_c5_loaded_entries (lines : List (List Char))
    (h : ∀ line ∈ lines,
        (processLine line).all
          (fun kv => decide (kv.1.length = 1) && decide (0 ≤ kv.2)) = true) :
    ∀ kv ∈ load_frequency_data lines, kv.1.length = 1 ∧ 0 ≤ kv.2 := by
  intro kv hkv
  obtain ⟨line, hline, hp⟩ := load_mem hkv
  have h2 := h line hline
  rw [hp] at h2
  simpa [Option.all] using h2

/-- Witness for the amended C5: a well-formed one-line file. -/
theorem claim_c5_loaded_entries_witness :
    (∀ line ∈ [['a', '\t', '5']],
        (processLine line).all
          (fun kv => decide (kv.1.length = 1) && decide (0 ≤ kv.2)) = true) ∧
    ∀ kv ∈ load_frequency_data [['a', '\t', '5']], kv.1.length = 1 ∧ 0 ≤ kv.2 :=
  ⟨by decide, claim_c5_loaded_entries [['a', '\t', '5']] (by decide)⟩

theorem splitSep_ne_nil (sep : Char) : ∀ l : List Char, splitSep sep l ≠ []
  | [] => by simp [splitSep]
  | c :: cs => by
    rw [splitSep]
    cases h : splitSep sep cs with
    | nil => simp
    | cons p ps => by_cases hc : c = sep <;> simp [hc]

/-- Splitting `a ++ sep :: rest` when `a` is separator-free yields `a`
followed by the split of `rest`. -/
theorem splitSep_append (sep : Char) : ∀ (a rest : List Char), sep ∉ a →
    splitSep sep (a ++ sep :: rest) = a :: splitSep sep rest
  | [], rest, _ => by
    rw [List.nil_append, splitSep]
    cases h : splitSep sep rest with
    | nil => exact absurd h (splitSep_ne_nil sep rest)
    | cons p ps => simp
  | c :: a, rest, hna => by
    have hc : c ≠ sep := fun h => hna (by rw [← h]; exact List.mem_cons_self c a)
    rw [List.cons_append, splitSep,
      splitSep_append sep a rest (fun h => hna (List.mem_cons_of_mem c h))]
    simp [hc]

/-- C6 counterexample: the line `a<TAB>5<TAB>9` is split at both tabs, its
second field is `5` (not `5<TAB>9`), so the loader stores `('a', 5)`
rather than skipping the line. -/
theorem claim_c6_counterexample :
    load_frequency_data [['a', '\t', '5', '\t', '9']] = [(['a'], 5)] ∧
    load_frequency_data [['a', '\t', '5', '\t', '9']] ≠ [] :=
  ⟨rfl, by decide⟩

/-- C6 (amended): a tab-containing line is split at every tab and only the
first two fields are used, the rest ignored: a stripped non-comment line
`k<TAB>x<TAB>y` with tab-free `k ≠ []` and `x` parsing to `v` stores the
entry `(k, v)`. -/
theorem claim_c6_tab_split (k x y : List Char) (v : Int)
    (hstrip : pyStrip (k ++ '\t' :: (x ++ '\t' :: y)) = k ++ '\t' :: (x ++ '\t' :: y))
    (hk : k ≠ []) (hhash : k.head? ≠ some '#')
    (hkt : '\t' ∉ k) (hxt : '\t' ∉ x)
    (hv : parseInt x = some v) :
    processLine (k ++ '\t' :: (x ++ '\t' :: y)) = some (k, v) := by
  unfold processLine
  rw [hstrip]
  have hLhead : (k ++ '\t' :: (x ++ '\t' :: y)).head? = k.head? := by
    cases k with
    | nil => exact absurd rfl hk
    | cons c k2 => rfl
  rw [if_neg (by simp [List.isEmpty_iff]), if_neg (by rw [hLhead]; exact hhash)]
  have hct : (k ++ '\t' :: (x ++ '\t' :: y)).contains '\t' = true := by simp
  rw [if_pos hct, splitSep_append '\t' k (x ++ '\t' :: y) hkt,
    splitSep_append '\t' x y hxt]
  show (match parseInt x with
        | some v2 => some (k, v2)
        | none => none) = some (k, v)
  rw [hv]

/-- Witness for the amended C6: the line `a<TAB>5<TAB>9`. -/
theorem claim_c6_tab_split_witness :
    (pyStrip (['a'] ++ '\t' :: (['5'] ++ '\t' :: ['9']))
        = ['a'] ++ '\t' :: (['5'] ++ '\t' :: ['9']) ∧
     (['a'] : List Char) ≠ [] ∧ (['a'] : List Char).head? ≠ some '#' ∧
     '\t' ∉ (['a'] : List Char) ∧ '\t' ∉ (['5'] : List Char) ∧
     parseInt ['5'] = some 5) ∧
    processLine (['a'] ++ '\t' :: (['5'] ++ '\t' :: ['9'])) = some (['a'], 5) :=
  ⟨⟨by decide, by decide, by decide, by decide, by decide, by decide⟩,
   claim_c6_tab_split ['a'] ['5'] ['9'] 5 (by decide) (by decide) (by decide)
     (by decide) (by decide) (by decide)⟩

/-- The head of `dropWhile p` never satisfies `p`. -/
theorem dropWhile_head_false (p : Char → Bool) : ∀ (l : List Char) {c : Char},
    (l.dropWhile p).head? = some c → p c = false
  | [], c => by simp [List.dropWhile]
  | x :: l, c => by
    rw [List.dropWhile_cons]
    by_cases hx : p x
    · rw [if_pos hx]
      exact dropWhile_head_false p l
    · rw [if_neg hx]
      intro h
      rw [List.head?_cons] at h
      obtain rfl : x = c := by injection h
      simpa using hx

theorem dropTrailing_cons (p : Char → Bool) (c : Char) (l : List Char) :
    dropTrailing p (c :: l)
      = if (dropTrailing p l).isEmpty && p c then [] else c :: dropTrailing p l := rfl

/-- Removing a trailing run leaves the head unchanged (or nothing). -/
theorem dropTrailing_head (p : Char → Bool) : ∀ (l : List Char),
    (dropTrailing p l).head? = l.head? ∨ dropTrailing p l = []
  | [] => Or.inl rfl
  | c :: l => by
    rw [dropTrailing_cons]
    split
    · exact Or.inr rfl
    · exact Or.inl rfl

/-- A stripped line never starts with a whitespace character. -/
theorem pyStrip_head_not_space (s : List Char) {c : Char}
    (h : (pyStrip s).head? = some c) : isPySpace c = false := by
  unfold pyStrip at h
  rcases dropTrailing_head isPySpace (s.dropWhile isPySpace) with h2 | h2
  · rw [h2] at h
    exact dropWhile_head_false isPySpace s h
  · rw [h2] at h
    simp at h

/-- The first field of a split line is empty or starts with the line's
first character. -/
theorem splitSep_head_part (sep : Char) : ∀ (l p : List Char) (ps : List (List Char)),
    splitSep sep l = p :: ps → p = [] ∨ p.head? = l.head?
  | [], p, ps => by
    rw [splitSep]
    intro h
    injection h with h1 h2
    exact Or.inl h1.symm
  | c :: cs, p, ps => by
    rw [splitSep]
    cases hs : splitSep sep cs with
    | nil =>
      intro h
      injection h with h1 h2
      exact Or.inl h1.symm
    | cons q qs =>
      intro h
      have h2 : (if c = sep then [] :: q :: qs else (c :: q) :: qs) = p :: ps := h
      by_cases hc : c = sep
      · rw [if_pos hc] at h2
        injection h2 with h3 h4
        exact Or.inl h3.symm
      · rw [if_neg hc] at h2
        injection h2 with h3 h4
        subst h3
        exact Or.inr rfl

/-- The key a line contributes is the empty string or starts with a
non-whitespace character (the head of the stripped line). -/
theorem processLine_key (line k : List Char) (v : Int)
    (hp : processLine line = some (k, v)) :
    k = [] ∨ ∃ c, k.head? = some c ∧ isPySpace c = false := by
  unfold processLine at hp
  by_cases h1 : (pyStrip line).isEmpty
  · rw [if_pos h1] at hp
    exact absurd hp (by simp)
  · rw [if_neg h1] at hp
    by_cases h2 : (pyStrip line).head? = some '#'
    · rw [if_pos h2] at hp
      exact absurd hp (by simp)
    · rw [if_neg h2] at hp
      have main : ∀ sep : Char,
          (match splitSep sep (pyStrip line) with
           | p0 :: p1 :: _ =>
             match parseInt p1 with
             | some v2 => some (p0, v2)
             | none => none
           | _ => none) = some (k, v) →
          k = [] ∨ ∃ c, k.head? = some c ∧ isPySpace c = false := by
        intro sep hm
        cases hs : splitSep sep (pyStrip line) with
        | nil => rw [hs] at hm; simp at hm
        | cons p0 rest =>
          cases rest with
          | nil => rw [hs] at hm; simp at hm
          | cons p1 rest2 =>
            rw [hs] at hm
            have hm2 : (match parseInt p1 with
                        | some v2 => some (p0, v2)
                        | none => none) = some (k, v) := hm
            cases hpi : parseInt p1 with
            | none => rw [hpi] at hm2; simp at hm2
            | some v2 =>
              rw [hpi] at hm2
              have hp0 : p0 = k := by
                injection hm2 with hm3
                exact congrArg Prod.fst hm3
              subst hp0
              rcases splitSep_head_part sep (pyStrip line) p0 (p1 :: rest2) hs with h | h
              · exact Or.inl h
              · cases hh : (pyStrip line).head? with
                | none =>
                  rw [hh] at h
                  exact Or.inl (by simpa using h)
                | some c =>
                  right
                  refine ⟨c, by rw [h, hh], pyStrip_head_not_space line hh⟩
      by_cases hct : (pyStrip line).contains '\t'
      · rw [if_pos hct] at hp
        exact main '\t' hp
      · rw [if_neg hct] at hp
        exact main ',' hp

/-- C10 counterexample: the line `<SPACE>,5` — a whitespace-only character
field — does produce a table entry: stripping removes the space and the
comma split yields the empty-string key, stored with value `5`. -/
theorem claim_c10_counterexample :
    load_frequency_data [[' ', ',', '5']] = [([], 5)] ∧
    load_frequency_data [[' ', ',', '5']] ≠ [] :=
  ⟨rfl, by decide⟩

/-- C10 (amended): no key of the loaded table is a single whitespace
character (the stripped line cannot start with whitespace; a whitespace
field leaves an empty or differently headed key), so a whitespace
character's frequency lookup — as the ranking step performs it — always
returns the default `0`. -/
theorem claim_c10_whitespace_default (lines : List (List Char)) (c : Char)
    (hc : isPySpace c = true) :
    dictGet (load_frequency_data lines) [c] 0 = 0 ∧
    freqLookupCode (load_frequency_data lines) c.toNat = 0 := by
  have hfind : (load_frequency_data lines).find? (fun p => p.1 == [c]) = none := by
    rw [List.find?_eq_none]
    intro x hx hbeq
    have hk1 : x.1 = [c] := eq_of_beq hbeq
    obtain ⟨line, -, hp⟩ := load_mem hx
    rcases processLine_key line x.1 x.2 (by rw [hp]) with hnil | ⟨c2, hc2, hsp⟩
    · rw [hk1] at hnil
      simp at hnil
    · rw [hk1] at hc2
      simp only [List.head?_cons, Option.some.injEq] at hc2
      rw [← hc2] at hsp
      rw [hsp] at hc
      exact Bool.noConfusion hc
  have hget : dictGet (load_frequency_data lines) [c] 0 = 0 := by
    unfold dictGet
    rw [hfind]
  refine ⟨hget, ?_⟩
  have hvalid : c.toNat < 0xd800 ∨ (0xdfff < c.toNat ∧ c.toNat < 0x110000) := c.valid
  unfold freqLookupCode
  rw [if_pos hvalid, Char.ofNat_toNat]
  exact hget

/-- Witness for the amended C10: the space character against a one-line
table. -/
theorem claim_c10_whitespace_default_witness :
    isPySpace ' ' = true ∧
    (dictGet (load_frequency_data [['a', ',', '5']]) [' '] 0 = 0 ∧
     freqLookupCode (load_frequency_data [['a', ',', '5']]) (' ').toNat = 0) :=
  ⟨by decide, claim_c10_whitespace_default [['a', ',', '5']] ' ' (by decide)⟩

/-! ## Lemmas about the ranking -/

/-- Two members of a strictly sorted list, in order, form a sublist. -/
theorem pair_sublist_of_sorted : ∀ (l : List Nat), l.Sorted (· < ·) →
    ∀ (a b : Nat), a ∈ l → b ∈ l → a < b → List.Sublist [a, b] l
  | [], _, a, b, ha, _, _ => absurd ha (List.not_mem_nil a)
  | x :: xs, hl, a, b, ha, hb, hab => by
    rw [List.sorted_cons] at hl
    obtain ⟨hx, hxs⟩ := hl
    rcases List.mem_cons.mp ha with rfl | ha2
    · have hb2 : b ∈ xs := by
        rcases List.mem_cons.mp hb with rfl | h
        · exact absurd hab (lt_irrefl b)
        · exact h
      exact List.Sublist.cons₂ a (List.singleton_sublist.mpr hb2)
    · have hb2 : b ∈ xs := by
        rcases List.mem_cons.mp hb with rfl | h
        · exact absurd hab (lt_asymm (hx a ha2))
        · exact h
      exact List.Sublist.cons x (pair_sublist_of_sorted xs hxs a b ha2 hb2 hab)

/-- C9: the ranking sort is stable — two characters of the (ascending,
duplicate-free) character list with equal frequency keep their relative
code-point order in the ranked list — and rebuilding the ranking and the
partition from identical inputs yields identical results. -/
theorem claim_c9_stable_ranking (chars : List Nat) (m : FreqDict) (a b : Nat)
    (hs : chars.Sorted (· < ·)) (ha : a ∈ chars) (hb : b ∈ chars) (hab : a < b)
    (hf : freqLookupCode m a = freqLookupCode m b) :
    List.Sublist [(a, freqLookupCode m a), (b, freqLookupCode m b)] (rankedList chars m) ∧
    (rankedList chars m = rankedList chars m ∧
     ∀ g : Nat, partitionGroups (rankedList chars m) g
        = partitionGroups (rankedList chars m) g) := by
  refine ⟨?_, rfl, fun g => rfl⟩
  unfold rankedList
  apply List.pair_sublist_insertionSort
  · show freqLookupCode m b ≤ freqLookupCode m a
    rw [hf]
  · have hsub := pair_sublist_of_sorted chars hs a b ha hb hab
    have hmap := hsub.map (fun c => (c, freqLookupCode m c))
    simpa using hmap

/-- Witness for C9: two characters of equal (default) frequency stay in
code-point order after ranking. -/
theorem claim_c9_stable_ranking_witness :
    (List.Sorted (· < ·) [97, 98] ∧ 97 ∈ [97, 98] ∧ 98 ∈ [97, 98] ∧ 97 < 98 ∧
     freqLookupCode [] 97 = freqLookupCode [] 98) ∧
    (List.Sublist [(97, freqLookupCode [] 97), (98, freqLookupCode [] 98)] (rankedList [97, 98] []) ∧
     (rankedList [97, 98] [] = rankedList [97, 98] [] ∧
      ∀ g : Nat, partitionGroups (rankedList [97, 98] []) g
         = partitionGroups (rankedList [97, 98] []) g)) :=
  ⟨⟨by decide, by decide, by decide, by decide, by decide⟩,
   claim_c9_stable_ranking [97, 98] [] 97 98 (by decide) (by decide) (by decide)
     (by decide) (by decide)⟩
